import Mathlib

/-!
# Verification of the cost-analysis scripts

Shallow embedding of the cost-aggregation and comparison logic of the
repository (`aws_cost_compare.py`, `account_service_costs.py`, `aws_cost.py`).
Monetary amounts are modelled as exact rationals (`ℚ`); Python `dict`s are
modelled as insertion-ordered association lists, matching Python's
iteration-order guarantee.
-/

namespace CostScripts

/-! ## Association-list dictionaries (Python `dict` / `defaultdict(float)`) -/

/-- `m.get(k, 0.0)` on a Python dict modelled as an association list. -/
def lookupD : List (String × ℚ) → String → ℚ
  | [], _ => 0
  | (k', v) :: rest, k => if k' = k then v else lookupD rest k

/-- `m[k]` on a Python dict, returning the first binding if any. -/
def lookupFirst {α : Type} : List (String × α) → String → Option α
  | [], _ => none
  | (k', v) :: rest, k => if k' = k then some v else lookupFirst rest k

/-- `m[k] += v` on a `defaultdict(float)`: update in place, or append a new
binding at the end (Python dicts preserve insertion order). -/
def addTo : List (String × ℚ) → String → ℚ → List (String × ℚ)
  | [], k, v => [(k, v)]
  | (k', w) :: rest, k, v =>
      if k' = k then (k', w + v) :: rest else (k', w) :: addTo rest k v

/-- `m[k] = v` on a Python dict: overwrite in place, or append. -/
def dictSet {α : Type} : List (String × α) → String → α → List (String × α)
  | [], k, v => [(k, v)]
  | (k', w) :: rest, k, v =>
      if k' = k then (k', v) :: rest else (k', w) :: dictSet rest k v

/-- Sum of a dict's values (`sum(m.values())`). -/
def sumVals (m : List (String × ℚ)) : ℚ := (m.map (·.2)).sum

/-! ## Descending stable insertion sort

Models Python's `list.sort(key=..., reverse=True)` / `sorted(..., reverse=True)`:
the result is ordered by descending key.  (Python's sort is additionally
stable; no property below depends on tie order.) -/

def insertDesc {α : Type} (f : α → ℚ) (x : α) : List α → List α
  | [] => [x]
  | y :: ys => if f y ≤ f x then x :: y :: ys else y :: insertDesc f x ys

def sortDesc {α : Type} (f : α → ℚ) (l : List α) : List α :=
  l.foldr (insertDesc f) []

/-! ## Rendering of percentages (`f"{pct:+.1f}%"`)

Python formats floats with round-half-even; the model does the same over ℚ.
The sign comes from the value itself, as in Python. -/

/-- Round to the nearest integer, ties to even (Python/IEEE rounding). -/
def rhe (x : ℚ) : ℤ :=
  let f := ⌊x⌋
  let r := x - f
  if r < 1/2 then f
  else if 1/2 < r then f + 1
  else if f % 2 = 0 then f else f + 1

/-- `f"{q:+.1f}%"`: explicit sign, one decimal digit, percent sign. -/
def formatSigned1 (q : ℚ) : String :=
  let n := (rhe (q * 10)).natAbs
  let sign := if q < 0 then "-" else "+"
  sign ++ toString (n / 10) ++ "." ++ toString (n % 10) ++ "%"

/-! ## The comparator (`aws_cost_compare.compare_costs`) -/

/-- Value of the `pct_change` field: a Python float that is either finite,
`float('inf')` or `float('-inf')`. -/
inductive PctVal where
  | finite : ℚ → PctVal
  | posInf : PctVal
  | negInf : PctVal
deriving DecidableEq, Repr

/-- One element of the list returned by `compare_costs`. -/
structure CompRow where
  service : String
  period1 : ℚ
  period2 : ℚ
  diff : ℚ
  pct : PctVal
deriving DecidableEq, Repr

/-- The comparison dict built for one service inside `compare_costs`
(lines 102-120 of `aws_cost_compare.py`). -/
def mkRow (m1 m2 : List (String × ℚ)) (s : String) : CompRow :=
  let cost1 := lookupD m1 s
  let cost2 := lookupD m2 s
  { service := s
    period1 := cost1
    period2 := cost2
    diff := cost2 - cost1
    pct :=
      if 0 < cost1 then .finite ((cost2 - cost1) / cost1 * 100)
      else if 0 < cost2 then .posInf
      else .finite 0 }

/-- First-occurrence deduplication of a key list; models iterating the Python
set `set(period1_costs.keys()) | set(period2_costs.keys())` (whose iteration
order is unspecified; no property below depends on the order). -/
def dedupStr : List String → List String
  | [] => []
  | k :: ks => k :: (dedupStr ks).filter (fun x => x ≠ k)

def unionKeys (l1 l2 : List String) : List String := dedupStr (l1 ++ l2)

/-- `compare_costs(period1_costs, period2_costs)`: one row per service in the
union of the keysets, sorted by descending absolute difference. -/
def compare_costs (m1 m2 : List (String × ℚ)) : List CompRow :=
  sortDesc (fun r => |r.diff|)
    ((unionKeys (m1.map (·.1)) (m2.map (·.1))).map (mkRow m1 m2))

/-- `format_pct` (lines 127-134): `inf` prints as `"NEW"`; `-inf`, or a
negative value of magnitude strictly above 1000, prints as `"REMOVED"`;
anything else as a signed one-decimal percentage. -/
def format_pct : PctVal → String
  | .posInf => "NEW"
  | .negInf => "REMOVED"
  | .finite q => if q < 0 ∧ 1000 < |q| then "REMOVED" else formatSigned1 q

/-- The row filter inside `print_comparison_table` (lines 161-167): rows whose
two period amounts are both below one cent are skipped. -/
def displayedRows (rows : List CompRow) : List CompRow :=
  rows.filter (fun r => ¬(r.period1 < 1/100 ∧ r.period2 < 1/100))

/-! ## Cursor-based pagination

The upstream API is modelled as a finite list of response pages consumed in
order; each page carries a payload and an optional `NextPageToken`.  The
`while True` loops break when the token is absent — or, because Python tests
truthiness, when it is the empty string. -/

structure Page (α : Type) where
  payload : α
  nextToken : Option String
deriving DecidableEq, Repr

/-- `token = resp.get("NextPageToken"); if not token: break` — the loop
continues only on a present, non-empty token. -/
def pageContinues {α : Type} (p : Page α) : Bool :=
  match p.nextToken with
  | some t => t ≠ ""
  | none => false

/-- One paginated `while True` fetch loop: request a page, process its
payload, stop unless the response carries a (truthy) continuation token.
Returns the final accumulator and the number of pages requested.
(The empty-pages case is degenerate: the live API always returns a page.) -/
def fetchPages {α β : Type} (proc : β → α → β) : β → List (Page α) → β × Nat
  | st, [] => (st, 0)
  | st, p :: rest =>
      if pageContinues p then
        ((fetchPages proc (proc st p.payload) rest).1,
          (fetchPages proc (proc st p.payload) rest).2 + 1)
      else (proc st p.payload, 1)

/-- A well-formed response sequence: nonempty, every page but the last carries
a continuation token, and the last does not. -/
def wfPages {α : Type} : List (Page α) → Bool
  | [] => false
  | [p] => !pageContinues p
  | p :: rest => pageContinues p && wfPages rest

/-! ## Dimension catalog fetchers
(`aws_cost_compare.get_linked_accounts`, `aws_cost.get_linked_accounts_ce`,
and the account-names loop of `account_service_costs.get_account_service_costs`) -/

/-- One element of a `DimensionValues` response:
`{"Value": ..., "Attributes": {"description": ...}}`. -/
structure DimVal where
  value : Option String
  attrs : Option (List (String × String))
deriving DecidableEq, Repr

/-- Entry extracted from one dimension value: skipped when the identifier is
missing or falsy (empty); the label is `Attributes["description"]` when the
attributes dict is truthy and has that key, else `None`.  (Both source
spellings — `attrs.get("description") if attrs else None` and
`attrs["description"] if attrs and "description" in attrs` — yield this.) -/
def dimEntry (v : DimVal) : Option (String × Option String) :=
  match v.value with
  | none => none
  | some aid =>
      if aid = "" then none
      else some (aid,
        match v.attrs with
        | some al => lookupFirst al "description"
        | none => none)

def pageEntries (vs : List DimVal) : List (String × Option String) :=
  vs.filterMap dimEntry

/-- The paginated collection phase of `get_linked_accounts` (lines 31-48):
append every page's entries. -/
def collectDim (pages : List (Page (List DimVal))) : List (String × Option String) :=
  (fetchPages (fun acc vs => acc ++ pageEntries vs) [] pages).1

def dimRequests (pages : List (Page (List DimVal))) : Nat :=
  (fetchPages (fun acc vs => acc ++ pageEntries vs)
    ([] : List (String × Option String)) pages).2

/-- The de-duplication pass of `get_linked_accounts` (lines 50-57): keep the
first occurrence of each identifier, tracked by a `seen` set. -/
def dedupGo (seen : List String) :
    List (String × Option String) → List (String × Option String)
  | [] => []
  | (aid, nm) :: rest =>
      if aid ∈ seen then dedupGo seen rest
      else (aid, nm) :: dedupGo (aid :: seen) rest

def dedupFirst (l : List (String × Option String)) : List (String × Option String) :=
  dedupGo [] l

/-- `get_linked_accounts` / `get_linked_accounts_ce`: paginated collection
followed by first-occurrence de-duplication. -/
def get_linked_accounts (pages : List (Page (List DimVal))) :
    List (String × Option String) :=
  dedupFirst (collectDim pages)

/-- Fold of Python dict assignment `d[k] = v` over a list of entries. -/
def dictFold {α : Type} (init : List (String × α)) (l : List (String × α)) :
    List (String × α) :=
  l.foldl (fun d e => dictSet d e.1 e.2) init

/-- The account-names loop of `get_account_service_costs` (lines 15-33):
a dict keyed by account id, assigned per entry — a later page's binding
overwrites an earlier one. -/
def account_names (pages : List (Page (List DimVal))) : List (String × Option String) :=
  (fetchPages (fun d vs => dictFold d (pageEntries vs))
    ([] : List (String × Option String)) pages).1

/-- Label of the last occurrence of a key in an entry list. -/
def lookupLast {α : Type} : List (String × α) → String → Option α
  | [], _ => none
  | (k', v) :: rest, k =>
      match lookupLast rest k with
      | some w => some w
      | none => if k' = k then some v else none

/-! ## The two-dimensional aggregator
(`account_service_costs.get_account_service_costs`, lines 36-70) -/

/-- One `Groups` element of a cost-and-usage page:
`Keys = [account, service]`, `Metrics.UnblendedCost.Amount`. -/
structure AcctGroup where
  account : String
  service : String
  amount : ℚ
deriving DecidableEq, Repr

/-- The three dictionaries built by the aggregation loop. -/
structure AggState where
  costs : List (String × List (String × ℚ))
  accountTotals : List (String × ℚ)
  serviceTotals : List (String × ℚ)
deriving DecidableEq, Repr

def emptyAgg : AggState := ⟨[], [], []⟩

/-- `costs[a]` on the outer `defaultdict(lambda: defaultdict(float))`. -/
def lookupMap (c : List (String × List (String × ℚ))) (a : String) :
    List (String × ℚ) :=
  match c with
  | [] => []
  | (k, m) :: rest => if k = a then m else lookupMap rest a

/-- `costs[a][s] += v` on the nested defaultdict. -/
def addToNested (c : List (String × List (String × ℚ))) (a s : String) (v : ℚ) :
    List (String × List (String × ℚ)) :=
  match c with
  | [] => [(a, addTo [] s v)]
  | (k, m) :: rest =>
      if k = a then (k, addTo m s v) :: rest else (k, m) :: addToNested rest a s v

/-- Lines 56-64: one group's contribution — recorded in all three dicts only
when the amount is strictly positive, otherwise dropped. -/
def ingest (st : AggState) (g : AcctGroup) : AggState :=
  if 0 < g.amount then
    { costs := addToNested st.costs g.account g.service g.amount
      accountTotals := addTo st.accountTotals g.account g.amount
      serviceTotals := addTo st.serviceTotals g.service g.amount }
  else st

/-- Aggregation of a flat sequence of fetched groups. -/
def aggregate (gs : List AcctGroup) : AggState := gs.foldl ingest emptyAgg

/-- The full paginated cost loop of `get_account_service_costs`: each page's
`ResultsByTime` periods each contribute their `Groups` in order. -/
def fetchAcctCosts (pages : List (Page (List (List AcctGroup)))) : AggState × Nat :=
  fetchPages (fun st pl => pl.flatten.foldl ingest st) emptyAgg pages

/-! ### Aggregation invariants -/

/-- The strictly positive contributions of a group sequence for one
(account, service) pair — the spec-side notion of C2. -/
def posContrib (gs : List AcctGroup) (a s : String) : ℚ :=
  ((gs.filter (fun g => g.account == a && (g.service == s && decide (0 < g.amount)))).map
    (·.amount)).sum

/-! ## Report construction (`account_service_costs.main`, lines 99-174) -/

/-- Line 100: accounts kept by the minimum-cost filter (`total >= min_cost`). -/
def retainedAccounts (minCost : ℚ) (st : AggState) : List (String × ℚ) :=
  st.accountTotals.filter (fun p => minCost ≤ p.2)

/-- Accounts removed by the minimum-cost filter. -/
def droppedAccounts (minCost : ℚ) (st : AggState) : List (String × ℚ) :=
  st.accountTotals.filter (fun p => ¬(minCost ≤ p.2))

/-- Line 101: retained accounts sorted by descending total. -/
def sortedAccounts (minCost : ℚ) (st : AggState) : List (String × ℚ) :=
  sortDesc (·.2) (retainedAccounts minCost st)

/-- Lines 131-144: `grand_total` accumulated while printing the retained,
sorted account rows. -/
def grandTotal (minCost : ℚ) (st : AggState) : ℚ :=
  (sortedAccounts minCost st).foldl (fun acc p => acc + p.2) 0

/-- Line 104: services sorted by descending cross-account total. -/
def sortedServices (st : AggState) : List (String × ℚ) :=
  sortDesc (·.2) st.serviceTotals

/-- Lines 105-107: breakdown column names, truncated to the top N services
when `top_services > 0`. -/
def serviceNames (topServices : Nat) (st : AggState) : List String :=
  if 0 < topServices then ((sortedServices st).take topServices).map (·.1)
  else (sortedServices st).map (·.1)

/-- `round(x, 2)` (Python rounds half to even). -/
def round2 (q : ℚ) : ℚ := (rhe (q * 100) : ℚ) / 100

/-- Lines 166-167: the per-service breakdown cells of one CSV data row. -/
def csvBreakdown (st : AggState) (topServices : Nat) (a : String) : List ℚ :=
  (serviceNames topServices st).map
    (fun s => round2 (lookupD (lookupMap st.costs a) s))

/-- Line 165: the exported total cell of one CSV data row. -/
def csvRowTotal (total : ℚ) : ℚ := round2 total

/-! ## The single-request comparison cost fetcher
(`aws_cost_compare.get_service_costs`, lines 60-94)

This fetcher issues exactly one `get_cost_and_usage` request and never reads
`NextPageToken`: only the first response page is processed.  Its per-service
accumulation `totals[service] += amount` has no positivity filter. -/

/-- One `Groups` element of a service-grouped cost response. -/
structure SvcGroup where
  service : String
  amount : ℚ
deriving DecidableEq, Repr

/-- Aggregation of service groups without any sign filter (lines 86-94). -/
def svcAgg (gs : List SvcGroup) : List (String × ℚ) :=
  gs.foldl (fun m g => addTo m g.service g.amount) []

/-- `get_service_costs` against a paginated upstream: a single request, so
only the head page's `ResultsByTime` groups are aggregated, whatever the
token says. -/
def get_service_costs (pages : List (Page (List (List SvcGroup)))) :
    List (String × ℚ) :=
  match pages with
  | [] => []
  | p :: _ => svcAgg p.payload.flatten

/-- Number of requests `get_service_costs` makes: one. -/
def get_service_costs_requests (_ : List (Page (List (List SvcGroup)))) : Nat := 1

/-- What the spec asks of a fetcher: the aggregate over the concatenation of
every page's records. -/
def svcAggAllPages (pages : List (Page (List (List SvcGroup)))) :
    List (String × ℚ) :=
  svcAgg (pages.map (fun p => p.payload.flatten)).flatten

/-! ## Date parsing and the comparison entry point
(`aws_cost_compare.parse_date_range` and `main`, lines 11-19 and 191-203) -/

structure Date where
  day : Nat
  month : Nat
  year : Nat
deriving DecidableEq, Repr

def isLeap (y : Nat) : Bool :=
  (y % 4 == 0 && y % 100 != 0) || y % 400 == 0

def daysInMonth (m y : Nat) : Nat :=
  if m = 2 then (if isLeap y then 29 else 28)
  else if m = 4 ∨ m = 6 ∨ m = 9 ∨ m = 11 then 30
  else 31

/-- Python `str.strip()`: drop leading and trailing whitespace. -/
def stripChars (s : List Char) : List Char :=
  ((s.dropWhile Char.isWhitespace).reverse.dropWhile Char.isWhitespace).reverse

/-- Python `str.split(sep)` for a nonempty separator: non-overlapping,
left-to-right.  Strings are handled as character lists and the recursion
carries a fuel argument (one unit per examined character) so it is
structural. -/
def splitSepFuel (sep : List Char) : Nat → List Char → List Char → List (List Char)
  | 0, s, cur => [cur.reverse ++ s]
  | _ + 1, [], cur => [cur.reverse]
  | fuel + 1, c :: rest, cur =>
      if sep.isPrefixOf (c :: rest) then
        cur.reverse :: splitSepFuel sep fuel ((c :: rest).drop sep.length) []
      else splitSepFuel sep fuel rest (c :: cur)

def splitSep (sep s : List Char) : List (List Char) :=
  splitSepFuel sep s.length s []

/-- Numeric value of a digit string. -/
def digitsToNat (s : List Char) : Nat :=
  s.foldl (fun n c => 10 * n + (c.toNat - '0'.toNat)) 0

/-- One `%d` / `%m` field of `strptime`: one or two digits (CPython's
`_strptime` patterns for these directives admit one- or two-digit values;
their numeric range restrictions are imposed below together with the
calendar validity check, with the same accept/reject outcome). -/
def parseDateField (s : List Char) : Option Nat :=
  if s.length = 0 ∨ 2 < s.length ∨ ¬(s.all Char.isDigit) then none
  else some (digitsToNat s)

/-- The `%y` field of `strptime`: exactly two digits (CPython's `_strptime`
pattern for `%y` is `\d\d`), so a one-digit year is a `ValueError`. -/
def parseYearField (s : List Char) : Option Nat :=
  if s.length = 2 ∧ s.all Char.isDigit then some (digitsToNat s) else none

/-- `datetime.strptime(s, "%d-%m-%y")`: 1-2 digit day and month fields and an
exactly-two-digit year field separated by hyphens, consuming the whole
string; `%y` maps 00-68 to 2000-2068 and 69-99 to 1969-1999; the day must
exist in the month. -/
def strptimeDMY (s : List Char) : Option Date :=
  match splitSep ['-'] s with
  | [ds, ms, ys] =>
    match parseDateField ds, parseDateField ms, parseYearField ys with
    | some d, some m, some y2 =>
        let y := if y2 ≤ 68 then 2000 + y2 else 1900 + y2
        if 1 ≤ m ∧ m ≤ 12 ∧ 1 ≤ d ∧ d ≤ daysInMonth m y then some ⟨d, m, y⟩
        else none
    | _, _, _ => none
  | _ => none

/-- `parse_date_range` (lines 11-19): split on `" to "`, demand exactly two
parts, and parse each stripped part as `dd-mm-yy`; any failure raises
`ValueError`. -/
def parse_date_range (s : String) : Except String (Date × Date) :=
  match splitSep (' ' :: 't' :: 'o' :: [' ']) s.toList with
  | [p1, p2] =>
      match strptimeDMY (stripChars p1), strptimeDMY (stripChars p2) with
      | some a, some b => .ok (a, b)
      | _, _ => .error ("time data does not match format: " ++ s)
  | _ => .error ("Invalid date range format: " ++ s ++ ". Expected 'dd-mm-yy to dd-mm-yy'")

/-- Outcome of a `main` run, at the granularity the claims need: the process
exit code, how many network requests were issued, and the `[ERROR]` line
printed on the failure path. -/
structure MainOutcome where
  exitCode : Nat
  netCalls : Nat
  errLine : Option String
deriving DecidableEq, Repr

/-- `main` (lines 191-203 and onward): both period arguments are parsed
inside a `try` before any session or API use; a `ValueError` prints
`[ERROR] ...` and returns 1.  On success the script discovers linked
accounts (one request per catalog page), fetches overall costs for both
periods (one request each), then two requests per discovered account. -/
def mainCompare (p1 p2 : String) (dimPages : List (Page (List DimVal))) : MainOutcome :=
  match parse_date_range p1 with
  | .error e => { exitCode := 1, netCalls := 0, errLine := some ("[ERROR] " ++ e) }
  | .ok _ =>
    match parse_date_range p2 with
    | .error e => { exitCode := 1, netCalls := 0, errLine := some ("[ERROR] " ++ e) }
    | .ok _ =>
        let accounts := get_linked_accounts dimPages
        { exitCode := 0
          netCalls := dimRequests dimPages + 2 + 2 * accounts.length
          errLine := none }

/-- Whether the parse raised `ValueError`. -/
def parseFails (r : Except String (Date × Date)) : Bool :=
  match r with
  | .error _ => true
  | .ok _ => false

/-! ## Theorems -/

theorem lookupD_addTo_self (m : List (String × ℚ)) (k : String) (v : ℚ) :
    lookupD (addTo m k v) k = lookupD m k + v := by
  induction m with
  | nil => simp [addTo, lookupD]
  | cons p rest ih =>
    obtain ⟨k', w⟩ := p
    by_cases h : k' = k
    · simp [addTo, lookupD, h]
    · simp [addTo, lookupD, h, ih]

theorem lookupD_addTo_ne (m : List (String × ℚ)) (k k' : String) (v : ℚ)
    (hne : k' ≠ k) : lookupD (addTo m k v) k' = lookupD m k' := by
  induction m with
  | nil =>
    simp only [addTo, lookupD]
    rw [if_neg (fun hh => hne hh.symm)]
  | cons p rest ih =>
    obtain ⟨a, w⟩ := p
    by_cases h : a = k
    · subst h
      simp only [addTo, if_pos rfl, lookupD]
      rw [if_neg (fun hh => hne hh.symm), if_neg (fun hh => hne hh.symm)]
    · by_cases h2 : a = k'
      · subst h2
        simp only [addTo]
        rw [if_neg (fun hh => hne hh)]
        simp [lookupD]
      · simp [addTo, lookupD, h, h2, ih]

theorem sumVals_addTo (m : List (String × ℚ)) (k : String) (v : ℚ) :
    sumVals (addTo m k v) = sumVals m + v := by
  induction m with
  | nil => simp [addTo, sumVals]
  | cons p rest ih =>
    obtain ⟨k', w⟩ := p
    by_cases h : k' = k
    · simp only [addTo, if_pos h, sumVals, List.map_cons, List.sum_cons]
      ring
    · simp only [addTo, if_neg h, sumVals, List.map_cons, List.sum_cons] at ih ⊢
      rw [ih]
      ring

theorem keys_addTo_subset (m : List (String × ℚ)) (k : String) (v : ℚ) :
    ((addTo m k v).map (·.1)) = if k ∈ m.map (·.1) then m.map (·.1) else m.map (·.1) ++ [k] := by
  induction m with
  | nil => simp [addTo]
  | cons p rest ih =>
    obtain ⟨k', w⟩ := p
    by_cases h : k' = k
    · subst h
      simp [addTo]
    · have hne : ¬(k = k') := fun hh => h hh.symm
      simp only [addTo, if_neg h, List.map_cons, ih, List.mem_cons, hne, false_or]
      by_cases hm : k ∈ rest.map (·.1)
      · simp [hm]
      · simp [hm]

theorem keys_nodup_addTo (m : List (String × ℚ)) (k : String) (v : ℚ)
    (h : (m.map (·.1)).Nodup) : ((addTo m k v).map (·.1)).Nodup := by
  rw [keys_addTo_subset]
  by_cases hm : k ∈ m.map (·.1)
  · rw [if_pos hm]
    exact h
  · rw [if_neg hm, List.nodup_append]
    refine ⟨h, List.nodup_singleton k, ?_⟩
    intro a ha hak
    rw [List.mem_singleton] at hak
    exact hm (hak ▸ ha)

theorem lookupD_of_mem (m : List (String × ℚ)) (k : String) (v : ℚ)
    (hnd : (m.map (·.1)).Nodup) (hm : (k, v) ∈ m) : lookupD m k = v := by
  induction m with
  | nil => simp at hm
  | cons p rest ih =>
    obtain ⟨k', w⟩ := p
    rw [List.map_cons, List.nodup_cons] at hnd
    rcases List.mem_cons.mp hm with h | h
    · have h1 : k = k' := congrArg Prod.fst h
      have h2 : v = w := congrArg Prod.snd h
      subst h1
      subst h2
      simp [lookupD]
    · have hk : k' ≠ k := fun he => hnd.1 (he ▸ List.mem_map.mpr ⟨(k, v), h, rfl⟩)
      simp only [lookupD]
      rw [if_neg hk]
      exact ih hnd.2 h

theorem perm_insertDesc {α : Type} (f : α → ℚ) (x : α) (l : List α) :
    List.Perm (insertDesc f x l) (x :: l) := by
  induction l with
  | nil => exact List.Perm.refl _
  | cons y ys ih =>
    by_cases h : f y ≤ f x
    · simp only [insertDesc, if_pos h]
      exact List.Perm.refl _
    · simp only [insertDesc, if_neg h]
      exact List.Perm.trans (ih.cons y) (List.Perm.swap x y ys)

theorem perm_sortDesc {α : Type} (f : α → ℚ) (l : List α) :
    List.Perm (sortDesc f l) l := by
  induction l with
  | nil => exact List.Perm.refl _
  | cons x xs ih => exact List.Perm.trans (perm_insertDesc f x _) (ih.cons x)

theorem sorted_insertDesc {α : Type} (f : α → ℚ) (x : α) (l : List α)
    (h : l.Sorted (fun a b => f b ≤ f a)) :
    (insertDesc f x l).Sorted (fun a b => f b ≤ f a) := by
  induction l with
  | nil => simp [insertDesc]
  | cons y ys ih =>
    rw [List.sorted_cons] at h
    obtain ⟨hy, hys⟩ := h
    by_cases hle : f y ≤ f x
    · simp only [insertDesc, if_pos hle]
      rw [List.sorted_cons]
      constructor
      · intro b hb
        rcases List.mem_cons.mp hb with hb | hb
        · exact hb ▸ hle
        · exact le_trans (hy b hb) hle
      · rw [List.sorted_cons]
        exact ⟨hy, hys⟩
    · simp only [insertDesc, if_neg hle]
      rw [List.sorted_cons]
      constructor
      · intro b hb
        have hb2 : b ∈ x :: ys := (perm_insertDesc f x ys).mem_iff.mp hb
        rcases List.mem_cons.mp hb2 with hb2 | hb2
        · exact hb2 ▸ le_of_not_le hle
        · exact hy b hb2
      · exact ih hys

theorem sorted_sortDesc {α : Type} (f : α → ℚ) (l : List α) :
    (sortDesc f l).Sorted (fun a b => f b ≤ f a) := by
  induction l with
  | nil => simp [sortDesc]
  | cons x xs ih => exact sorted_insertDesc f x _ ih

theorem mem_dedupStr (l : List String) (k : String) : k ∈ dedupStr l ↔ k ∈ l := by
  induction l with
  | nil => simp [dedupStr]
  | cons a as ih =>
    by_cases h : k = a
    · subst h; simp [dedupStr]
    · simp [dedupStr, h, List.mem_filter, ih]

theorem nodup_dedupStr (l : List String) : (dedupStr l).Nodup := by
  induction l with
  | nil => simp [dedupStr]
  | cons a as ih =>
    simp only [dedupStr, List.nodup_cons]
    constructor
    · intro hmem
      exact (by simpa using (List.mem_filter.mp hmem).2 : ¬ a = a) rfl
    · exact ih.filter _

theorem mem_unionKeys (l1 l2 : List String) (k : String) :
    k ∈ unionKeys l1 l2 ↔ k ∈ l1 ∨ k ∈ l2 := by
  simp [unionKeys, mem_dedupStr]

/-- On a well-formed page sequence, the pagination loop processes every
page's payload in order and requests exactly one request per page. -/
theorem fetchPages_of_wf {α β : Type} (proc : β → α → β) (st : β)
    (pages : List (Page α)) (h : wfPages pages = true) :
    fetchPages proc st pages
      = (pages.foldl (fun b p => proc b p.payload) st, pages.length) := by
  induction pages generalizing st with
  | nil => simp [wfPages] at h
  | cons p rest ih =>
    cases rest with
    | nil =>
      rw [wfPages, Bool.not_eq_true'] at h
      simp [fetchPages, h]
    | cons q rest2 =>
      simp only [wfPages, Bool.and_eq_true] at h
      rw [fetchPages, if_pos h.1, ih _ h.2]
      simp

/-! ### Dict-assignment and de-duplication lemmas -/

theorem lookupFirst_dictSet_self {α : Type} (m : List (String × α)) (k : String) (v : α) :
    lookupFirst (dictSet m k v) k = some v := by
  induction m with
  | nil => simp [dictSet, lookupFirst]
  | cons p rest ih =>
    obtain ⟨a, w⟩ := p
    by_cases h : a = k
    · simp [dictSet, lookupFirst, h]
    · simp [dictSet, lookupFirst, h, ih]

theorem lookupFirst_dictSet_ne {α : Type} (m : List (String × α)) (k k' : String)
    (v : α) (hne : k' ≠ k) : lookupFirst (dictSet m k v) k' = lookupFirst m k' := by
  induction m with
  | nil =>
    simp only [dictSet, lookupFirst]
    rw [if_neg (fun hh => hne hh.symm)]
  | cons p rest ih =>
    obtain ⟨a, w⟩ := p
    by_cases h : a = k
    · subst h
      simp only [dictSet, if_pos rfl, lookupFirst]
      rw [if_neg (fun hh => hne hh.symm), if_neg (fun hh => hne hh.symm)]
    · by_cases h2 : a = k'
      · subst h2
        simp only [dictSet]
        rw [if_neg h]
        simp [lookupFirst]
      · simp [dictSet, lookupFirst, h, h2, ih]

/-- The fold of dict assignments keeps the last-seen binding for every key. -/
theorem lookupFirst_dictFold {α : Type} (l : List (String × α))
    (init : List (String × α)) (k : String) :
    lookupFirst (dictFold init l) k
      = match lookupLast l k with
        | some w => some w
        | none => lookupFirst init k := by
  induction l generalizing init with
  | nil => simp [dictFold, lookupLast]
  | cons e rest ih =>
    obtain ⟨a, v⟩ := e
    show lookupFirst (dictFold (dictSet init a v) rest) k = _
    rw [ih]
    cases hr : lookupLast rest k with
    | some w => simp [lookupLast, hr]
    | none =>
      by_cases hk : a = k
      · subst hk
        simp [lookupLast, hr, lookupFirst_dictSet_self]
      · simp [lookupLast, hr, hk, lookupFirst_dictSet_ne init a k v (fun hh => hk hh.symm)]

theorem countP_dedupGo_of_mem (l : List (String × Option String)) (seen : List String)
    (aid : String) (h : aid ∈ seen) :
    (dedupGo seen l).countP (fun e => e.1 == aid) = 0 := by
  induction l generalizing seen with
  | nil => simp [dedupGo]
  | cons e rest ih =>
    obtain ⟨a, nm⟩ := e
    by_cases ha : a ∈ seen
    · simp only [dedupGo, if_pos ha]
      exact ih seen h
    · have hne : a ≠ aid := fun hh => ha (hh ▸ h)
      simp only [dedupGo, if_neg ha, List.countP_cons]
      rw [ih (a :: seen) (List.mem_cons_of_mem a h)]
      simp [hne]

theorem countP_dedupGo_of_not_mem (l : List (String × Option String)) (seen : List String)
    (aid : String) (h : aid ∉ seen) (hm : aid ∈ l.map (·.1)) :
    (dedupGo seen l).countP (fun e => e.1 == aid) = 1 := by
  induction l generalizing seen with
  | nil => simp at hm
  | cons e rest ih =>
    obtain ⟨a, nm⟩ := e
    by_cases ha : a ∈ seen
    · have hne : a ≠ aid := fun hh => h (hh ▸ ha)
      have hm2 : aid ∈ rest.map (·.1) := by
        rcases List.mem_cons.mp hm with hh | hh
        · exact absurd hh.symm hne
        · exact hh
      simp only [dedupGo, if_pos ha]
      exact ih seen h hm2
    · by_cases hk : a = aid
      · subst hk
        simp only [dedupGo, if_neg ha, List.countP_cons]
        rw [countP_dedupGo_of_mem rest (a :: seen) a (List.mem_cons_self a seen)]
        simp
      · have hm2 : aid ∈ rest.map (·.1) := by
          rcases List.mem_cons.mp hm with hh | hh
          · exact absurd hh.symm hk
          · exact hh
        have hs2 : aid ∉ a :: seen := by
          intro hc
          rcases List.mem_cons.mp hc with hc | hc
          · exact hk hc.symm
          · exact h hc
        simp only [dedupGo, if_neg ha, List.countP_cons]
        rw [ih (a :: seen) hs2 hm2]
        simp [hk]

theorem lookupFirst_dedupGo (l : List (String × Option String)) (seen : List String)
    (aid : String) (h : aid ∉ seen) :
    lookupFirst (dedupGo seen l) aid = lookupFirst l aid := by
  induction l generalizing seen with
  | nil => simp [dedupGo]
  | cons e rest ih =>
    obtain ⟨a, nm⟩ := e
    by_cases ha : a ∈ seen
    · have hne : a ≠ aid := fun hh => h (hh ▸ ha)
      simp only [dedupGo, if_pos ha, lookupFirst]
      rw [if_neg hne]
      exact ih seen h
    · by_cases hk : a = aid
      · subst hk
        simp [dedupGo, if_neg ha, lookupFirst]
      · have hs2 : aid ∉ a :: seen := by
          intro hc
          rcases List.mem_cons.mp hc with hc | hc
          · exact hk hc.symm
          · exact h hc
        simp only [dedupGo, if_neg ha, lookupFirst]
        rw [if_neg hk, if_neg hk]
        exact ih (a :: seen) hs2

theorem lookupMap_addToNested_self (c : List (String × List (String × ℚ)))
    (a s : String) (v : ℚ) :
    lookupMap (addToNested c a s v) a = addTo (lookupMap c a) s v := by
  induction c with
  | nil => simp [addToNested, lookupMap]
  | cons p rest ih =>
    obtain ⟨k, m⟩ := p
    by_cases h : k = a
    · simp [addToNested, lookupMap, h]
    · simp [addToNested, lookupMap, h, ih]

theorem lookupMap_addToNested_ne (c : List (String × List (String × ℚ)))
    (a a' s : String) (v : ℚ) (hne : a' ≠ a) :
    lookupMap (addToNested c a s v) a' = lookupMap c a' := by
  induction c with
  | nil =>
    simp only [addToNested, lookupMap]
    rw [if_neg (fun hh => hne hh.symm)]
  | cons p rest ih =>
    obtain ⟨k, m⟩ := p
    by_cases h : k = a
    · subst h
      simp only [addToNested, if_pos rfl, lookupMap]
      rw [if_neg (fun hh => hne hh.symm), if_neg (fun hh => hne hh.symm)]
    · by_cases h2 : k = a'
      · subst h2
        simp only [addToNested]
        rw [if_neg h]
        simp [lookupMap]
      · simp [addToNested, lookupMap, h, h2, ih]

/-- Effect of ingesting a single group on one stored amount. -/
theorem lookup2_ingest (st : AggState) (g : AcctGroup) (a s : String) :
    lookupD (lookupMap (ingest st g).costs a) s
      = lookupD (lookupMap st.costs a) s
        + (if g.account = a ∧ (g.service = s ∧ 0 < g.amount) then g.amount else 0) := by
  by_cases hp : 0 < g.amount
  · simp only [ingest, if_pos hp]
    by_cases ha : g.account = a
    · rw [ha, lookupMap_addToNested_self]
      by_cases hs : g.service = s
      · rw [hs, lookupD_addTo_self]
        simp [ha, hs, hp]
      · rw [lookupD_addTo_ne _ _ _ _ (fun hh => hs hh.symm)]
        simp [hs]
    · rw [lookupMap_addToNested_ne _ _ _ _ _ (fun hh => ha hh.symm)]
      simp [ha]
  · simp [ingest, hp]

/-- C2 core invariant: after folding any group sequence, the stored amount of
a key pair is its prior value plus the sum of its positive contributions. -/
theorem lookup2_foldl_ingest (gs : List AcctGroup) (st : AggState) (a s : String) :
    lookupD (lookupMap (gs.foldl ingest st).costs a) s
      = lookupD (lookupMap st.costs a) s + posContrib gs a s := by
  induction gs generalizing st with
  | nil => simp [posContrib]
  | cons g rest ih =>
    rw [List.foldl_cons, ih (ingest st g), lookup2_ingest]
    have hfilter : posContrib (g :: rest) a s
        = (if g.account = a ∧ (g.service = s ∧ 0 < g.amount) then g.amount else 0)
          + posContrib rest a s := by
      simp only [posContrib, List.filter_cons]
      by_cases hc : g.account = a ∧ (g.service = s ∧ 0 < g.amount)
      · rw [if_pos (by simp [hc.1, hc.2.1, hc.2.2]), if_pos hc]
        simp
      · rw [if_neg (by
            intro hh
            simp only [Bool.and_eq_true, beq_iff_eq, decide_eq_true_eq] at hh
            exact hc ⟨hh.1, hh.2.1, hh.2.2⟩), if_neg hc]
        simp
    rw [hfilter]
    ring

/-- Invariants preserved by every ingest step hold after any fold. -/
theorem foldl_ingest_inv (P : AggState → Prop)
    (hstep : ∀ st g, P st → P (ingest st g)) :
    ∀ (gs : List AcctGroup) (st : AggState), P st → P (gs.foldl ingest st)
  | [], _, h => h
  | g :: rest, st, h => foldl_ingest_inv P hstep rest (ingest st g) (hstep st g h)

theorem sumVals_lookupMap_ingest (st : AggState) (g : AcctGroup)
    (h : ∀ a, lookupD st.accountTotals a = sumVals (lookupMap st.costs a)) :
    ∀ a, lookupD (ingest st g).accountTotals a = sumVals (lookupMap (ingest st g).costs a) := by
  intro a
  by_cases hp : 0 < g.amount
  · simp only [ingest, if_pos hp]
    by_cases ha : g.account = a
    · rw [ha, lookupD_addTo_self, lookupMap_addToNested_self, sumVals_addTo, h a]
    · rw [lookupD_addTo_ne _ _ _ _ (fun hh => ha hh.symm),
        lookupMap_addToNested_ne _ _ _ _ _ (fun hh => ha hh.symm), h a]
  · simp [ingest, hp, h a]

/-- Per-account totals always equal the sum of the account's per-service
breakdown amounts (over the full, untruncated breakdown). -/
theorem accountTotals_eq_row_sum (gs : List AcctGroup) (a : String) :
    lookupD (aggregate gs).accountTotals a = sumVals (lookupMap (aggregate gs).costs a) := by
  exact foldl_ingest_inv
    (fun st => ∀ a, lookupD st.accountTotals a = sumVals (lookupMap st.costs a))
    sumVals_lookupMap_ingest gs emptyAgg (fun _ => rfl) a

/-- Cross-check invariant at aggregation level: the account-totals dict and
the service-totals dict always carry the same total sum. -/
theorem sum_accountTotals_eq_sum_serviceTotals (gs : List AcctGroup) :
    sumVals (aggregate gs).accountTotals = sumVals (aggregate gs).serviceTotals := by
  refine foldl_ingest_inv
    (fun st => sumVals st.accountTotals = sumVals st.serviceTotals)
    (fun st g h => ?_) gs emptyAgg rfl
  by_cases hp : 0 < g.amount
  · simp only [ingest, if_pos hp]
    rw [sumVals_addTo, sumVals_addTo, h]
  · simp [ingest, hp, h]

/-- The account-totals dict has no duplicate keys. -/
theorem accountTotals_keys_nodup (gs : List AcctGroup) :
    ((aggregate gs).accountTotals.map (·.1)).Nodup := by
  refine foldl_ingest_inv (fun st => (st.accountTotals.map (·.1)).Nodup)
    (fun st g h => ?_) gs emptyAgg (by simp [emptyAgg])
  by_cases hp : 0 < g.amount
  · simp only [ingest, if_pos hp]
    exact keys_nodup_addTo _ _ _ h
  · simp [ingest, hp, h]

theorem foldl_add_eq_sumVals (l : List (String × ℚ)) (init : ℚ) :
    l.foldl (fun acc p => acc + p.2) init = init + sumVals l := by
  induction l generalizing init with
  | nil => simp [sumVals]
  | cons p rest ih =>
    rw [List.foldl_cons, ih]
    simp only [sumVals, List.map_cons, List.sum_cons]
    ring

/-- The printed grand total is exactly the sum of the retained (post-filter)
account totals; sorting does not change the sum. -/
theorem grandTotal_eq_sum_retained (minCost : ℚ) (st : AggState) :
    grandTotal minCost st = sumVals (retainedAccounts minCost st) := by
  rw [grandTotal, foldl_add_eq_sumVals, zero_add]
  exact ((perm_sortDesc (·.2) (retainedAccounts minCost st)).map (·.2)).sum_eq

theorem sumVals_filter_partition (p : String × ℚ → Prop) [DecidablePred p]
    (l : List (String × ℚ)) :
    sumVals (l.filter (fun x => p x)) + sumVals (l.filter (fun x => ¬ p x)) = sumVals l := by
  induction l with
  | nil => simp [sumVals]
  | cons x rest ih =>
    rw [List.filter_cons, List.filter_cons]
    by_cases hx : p x
    · rw [if_pos (by simp [hx]), if_neg (by simp [hx])]
      simp only [sumVals, List.map_cons, List.sum_cons] at ih ⊢
      rw [add_assoc, ih]
    · rw [if_neg (by simp [hx]), if_pos (by simp [hx])]
      simp only [sumVals, List.map_cons, List.sum_cons] at ih ⊢
      rw [add_left_comm, ih]

/-! ### Remaining helper lemmas -/

theorem serviceNames_take (st : AggState) (N : Nat) (hN : 0 < N) :
    serviceNames N st = (serviceNames 0 st).take N := by
  rw [serviceNames, if_pos hN, serviceNames, if_neg (lt_irrefl 0), List.map_take]

theorem csvBreakdown_take (st : AggState) (N : Nat) (a : String) (hN : 0 < N) :
    csvBreakdown st N a = (csvBreakdown st 0 a).take N := by
  rw [csvBreakdown, csvBreakdown, serviceNames_take st N hN, List.map_take]

theorem mkRow_service (m1 m2 : List (String × ℚ)) (k : String) :
    (mkRow m1 m2 k).service = k := rfl

theorem perm_compare_costs (m1 m2 : List (String × ℚ)) :
    List.Perm (compare_costs m1 m2)
      ((unionKeys (m1.map (·.1)) (m2.map (·.1))).map (mkRow m1 m2)) :=
  perm_sortDesc _ _

theorem compare_services_perm (m1 m2 : List (String × ℚ)) :
    List.Perm ((compare_costs m1 m2).map (·.service))
      (unionKeys (m1.map (·.1)) (m2.map (·.1))) := by
  have h := (perm_compare_costs m1 m2).map (·.service)
  rw [List.map_map] at h
  simp only [Function.comp_def, mkRow_service, List.map_id, List.map_id'] at h
  exact h

theorem compare_row_fields (m1 m2 : List (String × ℚ)) (r : CompRow)
    (hr : r ∈ compare_costs m1 m2) :
    r.period1 = lookupD m1 r.service ∧ r.period2 = lookupD m2 r.service ∧
      r.diff = lookupD m2 r.service - lookupD m1 r.service := by
  obtain ⟨k, hk, hr2⟩ := List.mem_map.mp ((perm_compare_costs m1 m2).mem_iff.mp hr)
  subst hr2
  exact ⟨rfl, rfl, rfl⟩

theorem foldl_entries (dps : List (Page (List DimVal)))
    (acc : List (String × Option String)) :
    dps.foldl (fun b p => b ++ pageEntries p.payload) acc
      = acc ++ (dps.map (fun p => pageEntries p.payload)).flatten := by
  induction dps generalizing acc with
  | nil => simp
  | cons p rest ih => simp [ih]

theorem foldl_flatten_eq {β γ : Type} (g : β → γ → β) (ls : List (List γ)) (init : β) :
    (ls.flatten).foldl g init = ls.foldl (fun st l => l.foldl g st) init := by
  induction ls generalizing init with
  | nil => simp
  | cons l rest ih => simp [List.foldl_append, ih]

/-- The catalog fetch loop follows the cursor to exhaustion: every page's
entries are collected in order and exactly one request is made per page. -/
theorem collectDim_of_wf (dps : List (Page (List DimVal))) (h : wfPages dps = true) :
    collectDim dps = (dps.map (fun p => pageEntries p.payload)).flatten ∧
    dimRequests dps = dps.length := by
  constructor
  · simp only [collectDim, fetchPages_of_wf _ _ _ h]
    exact (foldl_entries dps []).trans (by simp)
  · simp only [dimRequests, fetchPages_of_wf _ _ _ h]

/-- The two-dimensional cost loop follows the cursor to exhaustion: its
result is the aggregate of the concatenation of all pages' groups. -/
theorem fetchAcctCosts_of_wf (cps : List (Page (List (List AcctGroup))))
    (h : wfPages cps = true) :
    (fetchAcctCosts cps).1 = aggregate ((cps.map (fun p => p.payload.flatten)).flatten) ∧
    (fetchAcctCosts cps).2 = cps.length := by
  constructor
  · simp only [fetchAcctCosts, fetchPages_of_wf _ _ _ h, aggregate]
    rw [foldl_flatten_eq, List.foldl_map]
  · simp only [fetchAcctCosts, fetchPages_of_wf _ _ _ h]

/-! ## Claims -/

/-- C1 counterexample: a key with period1 = 20 and period2 = 0 gets percent
change −100.0, which `format_pct` renders as `"-100.0%"`, not as the claimed
`"REMOVED"` marker (that marker needs −∞ or a magnitude beyond 1000). -/
theorem C1_removed_marker_counterexample :
    format_pct (mkRow [("S", 20)] [("S", 0)] "S").pct = "-100.0%" ∧
    format_pct (mkRow [("S", 20)] [("S", 0)] "S").pct ≠ "REMOVED" := by
  have h : format_pct (mkRow [("S", 20)] [("S", 0)] "S").pct = "-100.0%" := by
    norm_num [mkRow, lookupD, format_pct, formatSigned1, rhe]
    decide
  refine ⟨h, ?_⟩
  rw [h]
  decide

/-- C1 amended: a zero prior-period amount never faults the comparator (the
division is guarded): period1 = 0 with positive period2 renders `"NEW"`;
period1 = 20 with period2 = 0 renders `"-100.0%"` (not `"REMOVED"`); and a
row with both periods zero is suppressed from the displayed table. -/
theorem C1_zero_period_edge_cases :
    (∀ (m1 m2 : List (String × ℚ)) (k : String),
      (lookupD m1 k = 0 → 0 < lookupD m2 k →
        format_pct (mkRow m1 m2 k).pct = "NEW") ∧
      (lookupD m1 k = 20 → lookupD m2 k = 0 →
        format_pct (mkRow m1 m2 k).pct = "-100.0%")) ∧
    (∀ (rows : List CompRow) (r : CompRow), r ∈ rows →
      r.period1 = 0 → r.period2 = 0 → r ∉ displayedRows rows) := by
  constructor
  · intro m1 m2 k
    constructor
    · intro h1 h2
      have hpct : (mkRow m1 m2 k).pct = PctVal.posInf := by
        simp only [mkRow]
        rw [if_neg (by rw [h1]; exact lt_irrefl 0), if_pos h2]
      rw [hpct]
      rfl
    · intro h1 h2
      have hpct : (mkRow m1 m2 k).pct
          = PctVal.finite ((lookupD m2 k - lookupD m1 k) / lookupD m1 k * 100) := by
        simp only [mkRow]
        rw [if_pos (by rw [h1]; norm_num)]
      rw [hpct, h1, h2]
      norm_num [format_pct, formatSigned1, rhe]
      decide
  · intro rows r hmem h1 h2 hcontra
    have h := (List.mem_filter.mp hcontra).2
    rw [h1, h2] at h
    norm_num at h

/-- C1 witness: the three edge cases at concrete inputs. -/
theorem C1_zero_period_witness :
    format_pct (mkRow [("S", 0)] [("S", 20)] "S").pct = "NEW" ∧
    format_pct (mkRow [("S", 20)] [("S", 0)] "S").pct = "-100.0%" ∧
    mkRow [("S", 0)] [("S", 0)] "S" ∉ displayedRows [mkRow [("S", 0)] [("S", 0)] "S"] :=
  ⟨(C1_zero_period_edge_cases.1 [("S", 0)] [("S", 20)] "S").1 (by decide) (by decide),
   (C1_zero_period_edge_cases.1 [("S", 20)] [("S", 0)] "S").2 (by decide) (by decide),
   C1_zero_period_edge_cases.2 [mkRow [("S", 0)] [("S", 0)] "S"]
     (mkRow [("S", 0)] [("S", 0)] "S") (List.mem_singleton.mpr rfl) (by decide) (by decide)⟩

/-- C2: the aggregator's stored amount for an (account, service) key tuple
equals the exact sum of that tuple's strictly positive contributions — zero
and negative (refund) contributions are dropped, not subtracted; in
particular 5.0, −1.0, 3.0 for one tuple aggregate to 8.0. -/
theorem C2_aggregator_positive_sum :
    (∀ (gs : List AcctGroup) (a s : String),
      lookupD (lookupMap (aggregate gs).costs a) s = posContrib gs a s) ∧
    lookupD (lookupMap
        (aggregate [⟨"A", "Svc1", 5⟩, ⟨"A", "Svc1", -1⟩, ⟨"A", "Svc1", 3⟩]).costs
        "A") "Svc1" = 8 := by
  constructor
  · intro gs a s
    have h := lookup2_foldl_ingest gs emptyAgg a s
    rw [show lookupD (lookupMap emptyAgg.costs a) s = 0 from rfl, zero_add] at h
    simpa only [aggregate] using h
  · norm_num [aggregate, ingest, emptyAgg, addToNested, addTo, lookupMap, lookupD]

/-- C3 counterexample: with groups `[(A, EC2, 5), (B, S3, 0.5)]` and the
script's default minimum of 1, account B is filtered out, so the printed
grand total (5) differs from the unfiltered one (5.5) and from the sum of
the service totals (5.5) — the minimum-total filter does change the grand
total. -/
theorem C3_min_filter_counterexample :
    grandTotal 1 (aggregate [⟨"A", "EC2", 5⟩, ⟨"B", "S3", 1/2⟩])
      ≠ grandTotal 0 (aggregate [⟨"A", "EC2", 5⟩, ⟨"B", "S3", 1/2⟩]) ∧
    grandTotal 1 (aggregate [⟨"A", "EC2", 5⟩, ⟨"B", "S3", 1/2⟩])
      ≠ sumVals (aggregate [⟨"A", "EC2", 5⟩, ⟨"B", "S3", 1/2⟩]).serviceTotals := by
  constructor <;>
    norm_num [grandTotal, sortedAccounts, retainedAccounts, aggregate, ingest, emptyAgg,
      addToNested, addTo, sortDesc, insertDesc, sumVals, List.filter,
      (show ("EC2" : String) ≠ "S3" from by decide),
      (show ("A" : String) ≠ "B" from by decide)]

/-- C3 amended: the printed grand total equals the sum of the retained
(post-filter) account totals; at aggregation level the sum of all account
totals equals the sum of all service totals (independent of any top-N
truncation, which never touches the totals dicts); and the minimum-total
filter leaves the service totals unchanged while lowering the grand total by
exactly the dropped accounts' totals. -/
theorem C3_grand_total_invariants (gs : List AcctGroup) (minCost : ℚ) :
    grandTotal minCost (aggregate gs) = sumVals (retainedAccounts minCost (aggregate gs)) ∧
    sumVals (aggregate gs).accountTotals = sumVals (aggregate gs).serviceTotals ∧
    grandTotal minCost (aggregate gs) + sumVals (droppedAccounts minCost (aggregate gs))
      = sumVals (aggregate gs).serviceTotals := by
  refine ⟨grandTotal_eq_sum_retained minCost (aggregate gs),
          sum_accountTotals_eq_sum_serviceTotals gs, ?_⟩
  rw [grandTotal_eq_sum_retained, ← sum_accountTotals_eq_sum_serviceTotals]
  simp only [retainedAccounts, droppedAccounts]
  exact sumVals_filter_partition (fun p => minCost ≤ p.2) (aggregate gs).accountTotals

/-- C4 counterexample: against a well-formed two-page response whose first
page carries a continuation cursor, `get_service_costs` (which issues a
single request and ignores `NextPageToken`) returns the aggregate of the
first page only, not of the concatenation of all pages' records. -/
theorem C4_single_request_counterexample :
    wfPages [Page.mk [[SvcGroup.mk "EC2" 5]] (some "t"),
             Page.mk [[SvcGroup.mk "EC2" 7]] none] = true ∧
    get_service_costs [Page.mk [[SvcGroup.mk "EC2" 5]] (some "t"),
                       Page.mk [[SvcGroup.mk "EC2" 7]] none]
      ≠ svcAggAllPages [Page.mk [[SvcGroup.mk "EC2" 5]] (some "t"),
                        Page.mk [[SvcGroup.mk "EC2" 7]] none] := by
  refine ⟨by decide, ?_⟩
  norm_num [get_service_costs, svcAggAllPages, svcAgg, addTo]

/-- C4 amended: the cursor-following fetchers (the dimension catalog loop
and the two-dimensional cost loop) process every page of a well-formed
response sequence — their result is the aggregate over the concatenation of
all pages' records, with exactly one request per page and none after the
cursor disappears; the comparison script's cost fetcher instead issues
exactly one request. -/
theorem C4_pagination_exhaustion :
    (∀ (dps : List (Page (List DimVal))), wfPages dps = true →
      collectDim dps = (dps.map (fun p => pageEntries p.payload)).flatten ∧
      dimRequests dps = dps.length) ∧
    (∀ (cps : List (Page (List (List AcctGroup)))), wfPages cps = true →
      (fetchAcctCosts cps).1 = aggregate ((cps.map (fun p => p.payload.flatten)).flatten) ∧
      (fetchAcctCosts cps).2 = cps.length) ∧
    (∀ (sps : List (Page (List (List SvcGroup)))), get_service_costs_requests sps = 1) :=
  ⟨collectDim_of_wf, fetchAcctCosts_of_wf, fun _ => rfl⟩

/-- C5 counterexample: when the same identifier appears on two catalog pages
with different labels, the account-names dict of
`get_account_service_costs` keeps the last-seen label ("Dev"), not the
first-seen one ("Prod") claimed by the spec. -/
theorem C5_last_seen_counterexample :
    lookupFirst (account_names
      [Page.mk [DimVal.mk (some "111") (some [("description", "Prod")])] (some "t"),
       Page.mk [DimVal.mk (some "111") (some [("description", "Dev")])] none]) "111"
      = some (some "Dev") ∧
    (some (some "Dev") : Option (Option String)) ≠ some (some "Prod") := by
  constructor <;> decide

/-- C5 amended: the list-producing catalog fetchers (`get_linked_accounts`,
`get_linked_accounts_ce`) de-duplicate to exactly one entry per identifier
and keep the first-seen label; the dict-based account-names catalog of
`get_account_service_costs` also keeps one entry per identifier but with the
last-seen label. -/
theorem C5_dedup_first_seen :
    (∀ (entries : List (String × Option String)) (aid : String),
      aid ∈ entries.map (·.1) →
        (dedupFirst entries).countP (fun e => e.1 == aid) = 1 ∧
        lookupFirst (dedupFirst entries) aid = lookupFirst entries aid) ∧
    (∀ (entries : List (String × Option String)) (aid : String),
      lookupFirst (dictFold [] entries) aid = lookupLast entries aid) ∧
    lookupFirst (get_linked_accounts
      [Page.mk [DimVal.mk (some "111") (some [("description", "Prod")])] (some "t"),
       Page.mk [DimVal.mk (some "111") (some [("description", "Dev")])] none]) "111"
      = some (some "Prod") := by
  refine ⟨?_, ?_, by decide⟩
  · intro entries aid hm
    exact ⟨countP_dedupGo_of_not_mem entries [] aid (by simp) hm,
           lookupFirst_dedupGo entries [] aid (by simp)⟩
  · intro entries aid
    rw [lookupFirst_dictFold]
    cases lookupLast entries aid <;> simp [lookupFirst]

/-- C5 witness: de-duplication at a concrete duplicated entry list. -/
theorem C5_dedup_witness :
    (dedupFirst [("111", some "Prod"), ("111", some "Dev")]).countP
        (fun e => e.1 == "111") = 1 ∧
    lookupFirst (dedupFirst [("111", some "Prod"), ("111", some "Dev")]) "111"
      = lookupFirst [("111", some "Prod"), ("111", some "Dev")] "111" :=
  C5_dedup_first_seen.1 [("111", some "Prod"), ("111", some "Dev")] "111" (by decide)

/-- C6: a retained account's total is its full spend summed over all of its
services; the exported total cell is that full spend rounded to cents; and
top-N truncation only drops trailing breakdown columns, never changing the
total. -/
theorem C6_totals_unaffected_by_truncation (gs : List AcctGroup) (minCost : ℚ)
    (N : Nat) (a : String) (t : ℚ)
    (hmem : (a, t) ∈ retainedAccounts minCost (aggregate gs)) :
    t = sumVals (lookupMap (aggregate gs).costs a) ∧
    csvRowTotal t = round2 (sumVals (lookupMap (aggregate gs).costs a)) ∧
    (0 < N → csvBreakdown (aggregate gs) N a = (csvBreakdown (aggregate gs) 0 a).take N) := by
  have hmem2 : (a, t) ∈ (aggregate gs).accountTotals := List.mem_of_mem_filter hmem
  have ht : lookupD (aggregate gs).accountTotals a = t :=
    lookupD_of_mem _ _ _ (accountTotals_keys_nodup gs) hmem2
  have h1 : t = sumVals (lookupMap (aggregate gs).costs a) :=
    ht.symm.trans (accountTotals_eq_row_sum gs a)
  exact ⟨h1, by rw [csvRowTotal, h1], fun hN => csvBreakdown_take _ N a hN⟩

/-- C6 witness: the property at a concrete aggregation. -/
theorem C6_totals_witness :
    (5 : ℚ) = sumVals (lookupMap (aggregate [⟨"A", "EC2", 3⟩, ⟨"A", "S3", 2⟩]).costs "A") ∧
    csvRowTotal 5
      = round2 (sumVals (lookupMap (aggregate [⟨"A", "EC2", 3⟩, ⟨"A", "S3", 2⟩]).costs "A")) ∧
    csvBreakdown (aggregate [⟨"A", "EC2", 3⟩, ⟨"A", "S3", 2⟩]) 1 "A"
      = (csvBreakdown (aggregate [⟨"A", "EC2", 3⟩, ⟨"A", "S3", 2⟩]) 0 "A").take 1 := by
  have h := C6_totals_unaffected_by_truncation [⟨"A", "EC2", 3⟩, ⟨"A", "S3", 2⟩]
    1 1 "A" 5 (by
      norm_num [retainedAccounts, aggregate, ingest, emptyAgg, addToNested, addTo,
        List.filter])
  exact ⟨h.1, h.2.1, h.2.2 (by decide)⟩

/-- C7: a period argument that does not parse as 'dd-mm-yy to dd-mm-yy'
makes `main` print a user-facing `[ERROR]` line and return exit code 1
before any network request is issued. -/
theorem C7_malformed_input_aborts (p1 p2 : String)
    (dimPages : List (Page (List DimVal)))
    (h : parseFails (parse_date_range p1) = true ∨
         parseFails (parse_date_range p2) = true) :
    (mainCompare p1 p2 dimPages).exitCode = 1 ∧
    (mainCompare p1 p2 dimPages).netCalls = 0 ∧
    ∃ msg, (mainCompare p1 p2 dimPages).errLine = some ("[ERROR] " ++ msg) := by
  cases hp1 : parse_date_range p1 with
  | error e =>
    have hm : mainCompare p1 p2 dimPages
        = { exitCode := 1, netCalls := 0, errLine := some ("[ERROR] " ++ e) } := by
      simp only [mainCompare, hp1]
    rw [hm]
    exact ⟨rfl, rfl, e, rfl⟩
  | ok d =>
    cases hp2 : parse_date_range p2 with
    | error e =>
      have hm : mainCompare p1 p2 dimPages
          = { exitCode := 1, netCalls := 0, errLine := some ("[ERROR] " ++ e) } := by
        simp only [mainCompare, hp1, hp2]
      rw [hm]
      exact ⟨rfl, rfl, e, rfl⟩
    | ok d2 =>
      rw [hp1, hp2] at h
      rcases h with h | h <;> simp [parseFails] at h

/-- C7 witness: a one-digit `%y` field is a malformed date (`strptime`
demands two digits), so the program aborts with exit code 1, zero network
calls and an `[ERROR]` line. -/
theorem C7_malformed_witness :
    (mainCompare "01-01-5 to 31-01-25" "01-01-25 to 31-01-25" []).exitCode = 1 ∧
    (mainCompare "01-01-5 to 31-01-25" "01-01-25 to 31-01-25" []).netCalls = 0 ∧
    ∃ msg, (mainCompare "01-01-5 to 31-01-25" "01-01-25 to 31-01-25" []).errLine
      = some ("[ERROR] " ++ msg) :=
  C7_malformed_input_aborts "01-01-5 to 31-01-25" "01-01-25 to 31-01-25" []
    (Or.inl (by decide))

/-- C8: swapping the two periods negates every row's difference and keeps
its magnitude; concretely (10, 15) gives diff +5 and pct +50.0%, while
(15, 10) gives diff −5 and pct −100/3 ≈ −33.3%. -/
theorem C8_swap_antisymmetry :
    (∀ (m1 m2 : List (String × ℚ)) (k : String),
      (mkRow m2 m1 k).diff = -((mkRow m1 m2 k).diff) ∧
      |(mkRow m2 m1 k).diff| = |(mkRow m1 m2 k).diff|) ∧
    (∀ (m1 m2 : List (String × ℚ)), ∀ r ∈ compare_costs m1 m2,
      (mkRow m2 m1 r.service).diff = -r.diff) ∧
    (mkRow [("S", 10)] [("S", 15)] "S").diff = 5 ∧
    (mkRow [("S", 10)] [("S", 15)] "S").pct = PctVal.finite 50 ∧
    format_pct (mkRow [("S", 10)] [("S", 15)] "S").pct = "+50.0%" ∧
    (mkRow [("S", 15)] [("S", 10)] "S").diff = -5 ∧
    (mkRow [("S", 15)] [("S", 10)] "S").pct = PctVal.finite (-100/3) ∧
    format_pct (mkRow [("S", 15)] [("S", 10)] "S").pct = "-33.3%" := by
  refine ⟨fun m1 m2 k => ⟨?_, ?_⟩, fun m1 m2 r hr => ?_,
    by norm_num [mkRow, lookupD],
    by norm_num [mkRow, lookupD],
    by norm_num [mkRow, lookupD, format_pct, formatSigned1, rhe]; decide,
    by norm_num [mkRow, lookupD],
    by norm_num [mkRow, lookupD],
    by
      have hp : (mkRow [("S", 15)] [("S", 10)] "S").pct = PctVal.finite (-100/3) := by
        norm_num [mkRow, lookupD]
      rw [hp]
      have h10 : ((-100/3 : ℚ) * 10) = (-1000 : ℚ)/3 := by ring
      have hr : rhe ((-1000 : ℚ)/3) = -333 := by
        unfold rhe
        norm_num
      have hcond : ¬((-100/3 : ℚ) < 0 ∧ 1000 < |(-100/3 : ℚ)|) := by
        rw [show (-100/3 : ℚ) = -(100/3) from by ring, abs_neg,
          abs_of_pos (show (0 : ℚ) < 100/3 from by norm_num)]
        norm_num
      show (if ((-100/3 : ℚ) < 0 ∧ 1000 < |(-100/3 : ℚ)|) then "REMOVED"
        else formatSigned1 (-100/3)) = "-33.3%"
      rw [if_neg hcond]
      unfold formatSigned1
      rw [h10, hr]
      norm_num
      decide⟩
  · show lookupD m1 k - lookupD m2 k = -(lookupD m2 k - lookupD m1 k)
    ring
  · show |lookupD m1 k - lookupD m2 k| = |lookupD m2 k - lookupD m1 k|
    exact abs_sub_comm _ _
  · have hf := (compare_row_fields m1 m2 r hr).2.2
    show lookupD m1 r.service - lookupD m2 r.service = -r.diff
    rw [hf]
    ring

/-- C8 witness: the negation law applied at the concrete (10, 15) pair. -/
theorem C8_swap_witness :
    (mkRow [("S", 15)] [("S", 10)] "S").diff
      = -((mkRow [("S", 10)] [("S", 15)] "S").diff) :=
  (C8_swap_antisymmetry.1 [("S", 10)] [("S", 15)] "S").1

/-- C9: the comparator returns exactly one row per key in the union of the
two keysets and no others; every row carries the two looked-up amounts and
diff = period2 − period1; and the result is sorted by descending absolute
difference. -/
theorem C9_rows_union_sorted (m1 m2 : List (String × ℚ)) :
    ((compare_costs m1 m2).map (·.service)).Nodup ∧
    (∀ k : String, k ∈ (compare_costs m1 m2).map (·.service)
        ↔ (k ∈ m1.map (·.1) ∨ k ∈ m2.map (·.1))) ∧
    (∀ r ∈ compare_costs m1 m2,
        r.period1 = lookupD m1 r.service ∧ r.period2 = lookupD m2 r.service ∧
        r.diff = lookupD m2 r.service - lookupD m1 r.service) ∧
    (compare_costs m1 m2).Sorted (fun a b => |b.diff| ≤ |a.diff|) := by
  refine ⟨?_, ?_, ?_, ?_⟩
  · exact ((compare_services_perm m1 m2).nodup_iff).mpr (nodup_dedupStr _)
  · intro k
    rw [(compare_services_perm m1 m2).mem_iff, mem_unionKeys]
  · exact fun r hr => compare_row_fields m1 m2 r hr
  · have h := sorted_sortDesc (fun r : CompRow => |r.diff|)
      ((unionKeys (m1.map (·.1)) (m2.map (·.1))).map (mkRow m1 m2))
    exact h

/-- C9 witness: union membership and sortedness at a concrete pair of maps. -/
theorem C9_rows_witness :
    "A" ∈ (compare_costs [("A", 3)] [("B", 1)]).map (·.service) ∧
    (compare_costs [("A", 3)] [("B", 1)]).Sorted (fun a b => |b.diff| ≤ |a.diff|) :=
  ⟨((C9_rows_union_sorted [("A", 3)] [("B", 1)]).2.1 "A").mpr (Or.inl (by decide)),
   (C9_rows_union_sorted [("A", 3)] [("B", 1)]).2.2.2⟩

/-- C10: whenever the period-1 amount is ≤ 0 (including strictly negative,
which the comparison's cost fetcher can store since it keeps refund amounts)
and the period-2 amount is positive, the percent change is +∞ and renders
"NEW"; when both amounts are ≤ 0 the percent change is exactly 0.0. -/
theorem C10_nonpositive_period1 :
    (∀ (m1 m2 : List (String × ℚ)) (k : String),
      (lookupD m1 k ≤ 0 → 0 < lookupD m2 k →
        (mkRow m1 m2 k).pct = PctVal.posInf ∧
        format_pct (mkRow m1 m2 k).pct = "NEW") ∧
      (lookupD m1 k ≤ 0 → lookupD m2 k ≤ 0 →
        (mkRow m1 m2 k).pct = PctVal.finite 0)) ∧
    lookupD (svcAgg [⟨"S", -5⟩]) "S" = -5 := by
  refine ⟨fun m1 m2 k => ⟨fun h1 h2 => ?_, fun h1 h2 => ?_⟩, by decide⟩
  · have hpct : (mkRow m1 m2 k).pct = PctVal.posInf := by
      simp only [mkRow]
      rw [if_neg (not_lt.mpr h1), if_pos h2]
    exact ⟨hpct, by rw [hpct]; rfl⟩
  · simp only [mkRow]
    rw [if_neg (not_lt.mpr h1), if_neg (not_lt.mpr h2)]

/-- C10 witness: a strictly negative stored period-1 amount with positive
period-2 renders "NEW". -/
theorem C10_negative_period1_witness :
    (mkRow [("S", -3)] [("S", 4)] "S").pct = PctVal.posInf ∧
    format_pct (mkRow [("S", -3)] [("S", 4)] "S").pct = "NEW" :=
  (C10_nonpositive_period1.1 [("S", -3)] [("S", 4)] "S").1 (by decide) (by decide)

end CostScripts
